import Mathlib

/-!
Verification development for the nebulae renderer.

Modelling conventions:
* Rust f64 values are modelled as exact rationals; every floating-point
  operation is modelled as the corresponding exact rational operation.
  Where the renderer relies on IEEE special values (division by zero
  producing an infinity, zero times infinity producing a NaN, saturating
  casts to integers) an explicit three-valued model F64 with dedicated
  infinity and NaN elements is used.
* Rust u32 arithmetic wraps; it is modelled on naturals with an explicit
  reduction modulo 2 ^ 32 after every operation that the source performs
  on u32 values.
* The thread-local random generator is modelled as an arbitrary stream of
  rationals, consumed two values at a time by the sampler; theorems that
  need the generator contract assume every stream element lies in [0, 1).
* Panics (index out of bounds, integer remainder by zero) are modelled by
  Option / Except results: none and Except.error denote a panic.
-/

namespace Nebulae

/-- Real and imaginary parts of a complex number, from mandelbrot.rs. -/
structure Complex where
  re : ℚ
  im : ℚ
  deriving DecidableEq

/-- Squared magnitude of a complex value, the quantity the tracer compares
against its thresholds. -/
def normSq (z : Complex) : ℚ :=
  z.re * z.re + z.im * z.im

/-- Loop body of mandelbrot.rs iterate: the while loop runs while fuel
remains and the cached squared components sum below stopSq, updating im
before re from the cached squares, recording every post-iteration z.
Returns the recorded trajectory and the final cached squares. -/
def iterateFrom (c : Complex) (stopSq : ℚ) : Complex → ℚ → ℚ → ℕ → List Complex × ℚ × ℚ
  | _, z2re, z2im, 0 => ([], z2re, z2im)
  | z, z2re, z2im, fuel + 1 =>
    if z2re + z2im < stopSq then
      let zim := 2 * z.re * z.im + c.im
      let zre := z2re - z2im + c.re
      let rest := iterateFrom c stopSq ⟨zre, zim⟩ (zre * zre) (zim * zim) fuel
      (⟨zre, zim⟩ :: rest.1, rest.2)
    else ([], z2re, z2im)

/-- Shallow embedding of mandelbrot.rs iterate: seeds the cached squares
from the initial iterate, runs the loop, then classifies escape by
comparing the final cached squared magnitude with the escape radius
squared. -/
def iterate (z c : Complex) (limit : ℕ) (escape stop : ℚ) : List Complex × Bool :=
  let out := iterateFrom c (stop * stop) z (z.re * z.re) (z.im * z.im) limit
  (out.1, decide (out.2.1 + out.2.2 > escape * escape))

/-- Modelled from the spec: one application of the map z to z squared plus c,
with the square recomputed directly from the components. -/
def naiveStep (z c : Complex) : Complex :=
  ⟨z.re * z.re - z.im * z.im + c.re, 2 * z.re * z.im + c.im⟩

/-- Modelled from the spec: the naive escape-time loop that recomputes the
square of z at every step instead of caching it. -/
def iterateNaiveFrom (c : Complex) (stopSq : ℚ) : Complex → ℕ → List Complex × Complex
  | z, 0 => ([], z)
  | z, fuel + 1 =>
    if z.re * z.re + z.im * z.im < stopSq then
      let rest := iterateNaiveFrom c stopSq (naiveStep z c) fuel
      (naiveStep z c :: rest.1, rest.2)
    else ([], z)

/-- Modelled from the spec: the naive escape-time tracer against which the
optimised loop of the source is compared. -/
def iterateNaive (z c : Complex) (limit : ℕ) (escape stop : ℚ) : List Complex × Bool :=
  let out := iterateNaiveFrom c (stop * stop) z limit
  (out.1, decide (out.2.re * out.2.re + out.2.im * out.2.im > escape * escape))

/-- Sub-rectangle of the unit square belonging to stratification cell
(a, b) of a k by k grid. -/
def inCell (k a b : ℕ) (q : ℚ × ℚ) : Prop :=
  (a : ℚ) / k ≤ q.1 ∧ q.1 < ((a : ℚ) + 1) / k ∧
    (b : ℚ) / k ≤ q.2 ∧ q.2 < ((b : ℚ) + 1) / k

/-- Model of the f64 values reaching map_to_color in main.rs: a finite
rational, positive infinity, or NaN. Negative finite operands never reach
the operations below (counts and their reciprocals are nonnegative), so
negative infinity is not modelled. -/
inductive F64 where
  | val : ℚ → F64
  | inf : F64
  | nan : F64
  deriving DecidableEq

/-- IEEE division on the modelled values: one divided by zero is positive
infinity; zero divided by zero is NaN. -/
def F64.div : F64 → F64 → F64
  | F64.nan, _ => F64.nan
  | F64.val a, F64.val b =>
    if b = 0 then (if a = 0 then F64.nan else F64.inf) else F64.val (a / b)
  | F64.val _, F64.inf => F64.val 0
  | F64.inf, F64.val _ => F64.inf
  | F64.inf, F64.inf => F64.nan
  | F64.inf, F64.nan => F64.nan
  | F64.val _, F64.nan => F64.nan

/-- IEEE multiplication on the modelled values: zero times infinity is NaN,
a nonzero finite value times infinity is infinity; finite times finite is
modelled as the exact rational product. -/
def F64.mul : F64 → F64 → F64
  | F64.nan, _ => F64.nan
  | F64.val a, F64.val b => F64.val (a * b)
  | F64.val a, F64.inf => if a = 0 then F64.nan else F64.inf
  | F64.inf, F64.val b => if b = 0 then F64.nan else F64.inf
  | F64.inf, F64.inf => F64.inf
  | F64.val _, F64.nan => F64.nan
  | F64.inf, F64.nan => F64.nan

/-- IEEE powf on the modelled values, for the exponents the claims about
map_to_color exercise: any base to the power zero is one, NaN and infinity
propagate per IEEE, a finite base to the power one is itself, and zero or
one bases are exact. A general finite base with a general exponent is an
irrational real with no exact rational form; that arm is never reached by
the theorems below, which use exponent one or special-value bases only. -/
def F64.powf : F64 → ℚ → F64
  | F64.nan, c => if c = 0 then F64.val 1 else F64.nan
  | F64.inf, c => if c = 0 then F64.val 1 else if 0 < c then F64.inf else F64.val 0
  | F64.val q, c =>
    if c = 0 then F64.val 1
    else if c = 1 then F64.val q
    else if q = 0 then (if 0 < c then F64.val 0 else F64.inf)
    else if q = 1 then F64.val 1
    else F64.val 0

/-- Saturating Rust cast from f64 to u8: NaN to 0, negative values to 0,
values at or above 256 to 255, otherwise truncation toward zero. -/
def F64.toU8 : F64 → ℕ
  | F64.nan => 0
  | F64.inf => 255
  | F64.val q => if q < 0 then 0 else min 255 (Int.toNat ⌊q⌋)

/-- Shallow embedding of map_to_color from main.rs: multiplier is
1.0 / maximum as f64, and every count p maps to
min(255, ((p * multiplier) ^ curve * 256) as u8). -/
def map_to_color (data : List ℕ) (maximum : ℕ) (curve : ℚ) : List ℕ :=
  let multiplier := F64.div (F64.val 1) (F64.val (maximum : ℚ))
  data.map (fun (p : ℕ) =>
    min 255 (F64.toU8 (F64.mul (F64.powf (F64.mul (F64.val (p : ℚ)) multiplier) curve)
      (F64.val 256))))

/-- Shallow embedding of f64_to_index from main.rs; the source parameter
names min and max are rendered lo and hi. The usize cast of a negative
float saturates to zero, which Int.toNat of the floor reproduces. -/
def f64_to_index (point lo hi : ℚ) (size : ℕ) : Option ℕ :=
  if lo = hi then none
  else
    let interp := (point - lo) / (hi - lo)
    let pixel := Int.toNat ⌊(size : ℚ) * interp⌋
    if 0 ≤ interp ∧ pixel < size then some pixel else none

/-- Wrapping bound of Rust u32 arithmetic. -/
def U32 : ℕ := 4294967296

/-- Channel count from main.rs; the program is hard-coded to three. -/
def CHANNELS : ℕ := 3

/-- Unscaled integer photo-counting image, from raw_image.rs. The atomic
counters are modelled as plain naturals below 2 ^ 32 and the concurrent
bump calls as sequential state updates. -/
structure RawImage where
  height : ℕ
  data : List ℕ
  maximum : ℕ
  deriving DecidableEq

/-- Shallow embedding of RawImage::new: the data length width*height*CHANNELS
is computed in u32 arithmetic, wrapping after each multiplication. -/
def RawImage.new (width height : ℕ) : RawImage :=
  { height := height
    data := List.replicate (width * height % U32 * CHANNELS % U32) 0
    maximum := 0 }

/-- Flat index computed inside RawImage::bump: (x * height + y) * 3 + channel
in u32 arithmetic, wrapping after each operation. -/
def RawImage.bumpIndex (height x y channel : ℕ) : ℕ :=
  ((x * height % U32 + y) % U32 * 3 % U32 + channel) % U32

/-- Shallow embedding of RawImage::bump. Indexing out of bounds panics,
modelled by none. The source calls fetch_add, which returns the counter
value from before the addition, binds that result to a variable and passes
it to fetch_max; the model mirrors this by taking the maximum with the
previous cell value. -/
def RawImage.bump (img : RawImage) (x y channel : ℕ) : Option RawImage :=
  let index := RawImage.bumpIndex img.height x y channel
  if h : index < img.data.length then
    let previous := img.data.get ⟨index, h⟩
    some { img with
      data := img.data.set index ((previous + 1) % U32)
      maximum := max img.maximum previous }
  else
    none

/-- Integer square root from jitter_sampler.rs. The source computes the f64
square root and truncates to u32; for every u32 input the conversion to
f64 is exact and the square root is correctly rounded, so the truncation
equals the integer square root. -/
def squirt (n : ℕ) : ℕ :=
  Nat.sqrt n

/-- Iterator state for jittered random 2D points over a unit square, from
jitter_sampler.rs. The thread-local generator is kept outside the state
and modelled as a stream of rationals together with a cursor. -/
structure JitterSampler where
  samples : ℕ
  count : ℕ
  countOrder : List ℕ
  size : ℕ
  width : ℚ
  height : ℚ
  deriving DecidableEq

/-- Shallow embedding of JitterSampler::new. In the source width and height
are 1.0 divided by size as f64; for zero samples that division yields an
infinity, which this rational model cannot hold, but the width of a
zero-sample sampler is never read because next panics first. -/
def JitterSampler.new (samples : ℕ) : JitterSampler :=
  { samples := samples
    count := 0
    countOrder := List.range samples
    size := squirt samples
    width := 1 / (squirt samples : ℚ)
    height := 1 / (squirt samples : ℚ) }

/-- Shallow embedding of one call to JitterSampler::next. The source first
calls index(), whose expression count % samples is a remainder by zero
when samples is zero: that panic is modelled by Except.error. The
count_order lookup is always in bounds because count % samples is below
the length of count_order; getD mirrors it. Each yielded item consumes
two generator values, at cursor pos and pos + 1. -/
def JitterSampler.next (s : JitterSampler) (rng : ℕ → ℚ) (pos : ℕ) :
    Except Unit (Option (ℚ × ℚ) × JitterSampler × ℕ) :=
  if s.samples = 0 then Except.error ()
  else
    let index := s.countOrder.getD (s.count % s.samples) 0
    let out :=
      if s.samples ≤ s.count then (none, pos)
      else if index < s.size * s.size then
        let x := index % s.size
        let y := index / s.size
        (some (s.width * (rng pos + (x : ℚ)), s.height * (rng (pos + 1) + (y : ℚ))), pos + 2)
      else
        (some (rng pos, rng (pos + 1)), pos + 2)
    Except.ok (out.1, { s with count := s.count + 1 }, out.2)

/-- Repeated calls to next, collecting the yielded items in order. -/
def JitterSampler.runFrom (s : JitterSampler) (rng : ℕ → ℚ) (pos : ℕ) :
    ℕ → Except Unit (List (Option (ℚ × ℚ)) × JitterSampler × ℕ)
  | 0 => Except.ok ([], s, pos)
  | k + 1 =>
    match s.next rng pos with
    | Except.error e => Except.error e
    | Except.ok (item, s2, pos2) =>
      match s2.runFrom rng pos2 k with
      | Except.error e => Except.error e
      | Except.ok (items, s3, pos3) => Except.ok (item :: items, s3, pos3)

/-- State of a fresh unshuffled sampler after m calls to next. -/
def stateAt (n m : ℕ) : JitterSampler :=
  { JitterSampler.new n with count := m }

/-- Closed form of the item yielded by the i-th next call of a fresh
unshuffled sampler over n samples. -/
def pointAt (n : ℕ) (rng : ℕ → ℚ) (i : ℕ) : ℚ × ℚ :=
  if i < squirt n * squirt n then
    ((1 / (squirt n : ℚ)) * (rng (2 * i) + ((i % squirt n : ℕ) : ℚ)),
      (1 / (squirt n : ℚ)) * (rng (2 * i + 1) + ((i / squirt n : ℕ) : ℚ)))
  else
    (rng (2 * i), rng (2 * i + 1))

theorem iterateFrom_eq_naive (c : Complex) (stopSq : ℚ) :
    ∀ (fuel : ℕ) (z : Complex),
      iterateFrom c stopSq z (z.re * z.re) (z.im * z.im) fuel =
        ((iterateNaiveFrom c stopSq z fuel).1,
          (iterateNaiveFrom c stopSq z fuel).2.re * (iterateNaiveFrom c stopSq z fuel).2.re,
          (iterateNaiveFrom c stopSq z fuel).2.im * (iterateNaiveFrom c stopSq z fuel).2.im) := by
  intro fuel
  induction fuel with
  | zero => intro z; rfl
  | succ n ih =>
    intro z
    have hz := ih (naiveStep z c)
    simp only [naiveStep] at hz
    simp only [iterateFrom, iterateNaiveFrom, naiveStep]
    split
    · simp only [hz]
    · rfl

theorem iterateNaiveFrom_length (c : Complex) (s : ℚ) :
    ∀ (fuel : ℕ) (z : Complex), (iterateNaiveFrom c s z fuel).1.length ≤ fuel := by
  intro fuel
  induction fuel with
  | zero => intro z; simp [iterateNaiveFrom]
  | succ n ih =>
    intro z
    simp only [iterateNaiveFrom]
    split
    · simpa using ih (naiveStep z c)
    · simp

theorem iterateNaiveFrom_ne_nil (c : Complex) (s : ℚ) (fuel : ℕ) (z : Complex)
    (h : (iterateNaiveFrom c s z fuel).1 ≠ []) : normSq z < s := by
  match fuel with
  | 0 => exact absurd rfl h
  | n + 1 =>
    by_cases hc : z.re * z.re + z.im * z.im < s
    · exact hc
    · exact absurd (by simp [iterateNaiveFrom, hc]) h

theorem iterateNaiveFrom_prefix_lt (c : Complex) (s : ℚ) :
    ∀ (fuel : ℕ) (z : Complex) (j : ℕ),
      j + 1 < (iterateNaiveFrom c s z fuel).1.length →
      normSq ((iterateNaiveFrom c s z fuel).1.getD j ⟨0, 0⟩) < s := by
  intro fuel
  induction fuel with
  | zero => intro z j hj; simp [iterateNaiveFrom] at hj
  | succ n ih =>
    intro z j hj
    by_cases hc : z.re * z.re + z.im * z.im < s
    · simp only [iterateNaiveFrom, if_pos hc] at hj ⊢
      match j with
      | 0 =>
        simp only [List.length_cons] at hj
        have hne : (iterateNaiveFrom c s (naiveStep z c) n).1 ≠ [] := by
          intro hnil
          rw [hnil] at hj
          simp at hj
        simpa using iterateNaiveFrom_ne_nil c s n (naiveStep z c) hne
      | j + 1 =>
        simp only [List.length_cons] at hj
        simpa using ih (naiveStep z c) j (by omega)
    · simp [iterateNaiveFrom, if_neg hc] at hj

theorem iterateNaiveFrom_entries (c : Complex) (s : ℚ) :
    ∀ (fuel : ℕ) (z : Complex),
      (0 < (iterateNaiveFrom c s z fuel).1.length →
        (iterateNaiveFrom c s z fuel).1.getD 0 ⟨0, 0⟩ = naiveStep z c) ∧
      (∀ j, j + 1 < (iterateNaiveFrom c s z fuel).1.length →
        (iterateNaiveFrom c s z fuel).1.getD (j + 1) ⟨0, 0⟩ =
          naiveStep ((iterateNaiveFrom c s z fuel).1.getD j ⟨0, 0⟩) c) := by
  intro fuel
  induction fuel with
  | zero =>
    intro z
    exact ⟨fun h => by simp [iterateNaiveFrom] at h,
      fun j hj => by simp [iterateNaiveFrom] at hj⟩
  | succ n ih =>
    intro z
    by_cases hc : z.re * z.re + z.im * z.im < s
    · constructor
      · intro _
        simp [iterateNaiveFrom, if_pos hc]
      · intro j hj
        simp only [iterateNaiveFrom, if_pos hc, List.length_cons] at hj ⊢
        match j with
        | 0 =>
          have h0 : 0 < (iterateNaiveFrom c s (naiveStep z c) n).1.length := by omega
          simpa using (ih (naiveStep z c)).1 h0
        | j + 1 =>
          simpa using (ih (naiveStep z c)).2 j (by omega)
    · constructor
      · intro h; simp [iterateNaiveFrom, if_neg hc] at h
      · intro j hj; simp [iterateNaiveFrom, if_neg hc] at hj

/-- C4: the optimised in-place update loop of iterate, which caches the
squared components and assigns im before re, computes exactly the map
z to z squared plus c: it agrees with the naive recomputing iteration on
the whole result, and every recorded trajectory entry is the naive step of
the previous iterate, starting from the initial iterate. -/
theorem C4_iterate_refines_naive (z c : Complex) (limit : ℕ) (escape stop : ℚ) :
    iterate z c limit escape stop = iterateNaive z c limit escape stop ∧
    (0 < (iterate z c limit escape stop).1.length →
      (iterate z c limit escape stop).1.getD 0 ⟨0, 0⟩ = naiveStep z c) ∧
    (∀ j, j + 1 < (iterate z c limit escape stop).1.length →
      (iterate z c limit escape stop).1.getD (j + 1) ⟨0, 0⟩ =
        naiveStep ((iterate z c limit escape stop).1.getD j ⟨0, 0⟩) c) := by
  have key := iterateFrom_eq_naive c (stop * stop) limit z
  have hfst : (iterate z c limit escape stop).1 = (iterateNaiveFrom c (stop * stop) z limit).1 := by
    simp [iterate, key]
  refine ⟨?_, ?_, ?_⟩
  · simp [iterate, iterateNaive, key]
  · rw [hfst]
    exact (iterateNaiveFrom_entries c (stop * stop) limit z).1
  · rw [hfst]
    exact (iterateNaiveFrom_entries c (stop * stop) limit z).2

/-- C4 witness: at a concrete input the second trajectory entry is the
naive step of the first. -/
theorem C4_witness :
    (iterate ⟨0, 0⟩ ⟨1, 0⟩ 2 2 3).1.getD 1 ⟨0, 0⟩ =
      naiveStep ((iterate ⟨0, 0⟩ ⟨1, 0⟩ 2 2 3).1.getD 0 ⟨0, 0⟩) ⟨1, 0⟩ :=
  (C4_iterate_refines_naive ⟨0, 0⟩ ⟨1, 0⟩ 2 2 3).2.2 0 (by norm_num [iterate, iterateFrom])

/-- C7: every trajectory has length at most the iteration limit, every
recorded point except possibly the last has squared magnitude strictly
below the stop threshold squared, and limit zero from the origin returns
an empty trajectory with escaped false. -/
theorem C7_trajectory_shape (z c : Complex) (limit : ℕ) (escape stop : ℚ) :
    (iterate z c limit escape stop).1.length ≤ limit ∧
    (∀ j, j + 1 < (iterate z c limit escape stop).1.length →
      normSq ((iterate z c limit escape stop).1.getD j ⟨0, 0⟩) < stop * stop) ∧
    iterate ⟨0, 0⟩ c 0 escape stop = ([], false) := by
  have key := iterateFrom_eq_naive c (stop * stop) limit z
  have hfst : (iterate z c limit escape stop).1 = (iterateNaiveFrom c (stop * stop) z limit).1 := by
    simp [iterate, key]
  refine ⟨?_, ?_, ?_⟩
  · rw [hfst]
    exact iterateNaiveFrom_length c (stop * stop) limit z
  · rw [hfst]
    exact iterateNaiveFrom_prefix_lt c (stop * stop) limit z
  · have h0 : ¬ ((0:ℚ) * 0 + 0 * 0 > escape * escape) := by
      push_neg
      nlinarith [mul_self_nonneg escape]
    simp [iterate, iterateFrom, h0]
    exact mul_self_nonneg escape

/-- C7 witness: a concrete non-final trajectory point stays below the stop
threshold. -/
theorem C7_witness :
    normSq ((iterate ⟨0, 0⟩ ⟨1, 0⟩ 2 2 3).1.getD 0 ⟨0, 0⟩) < 3 * 3 :=
  (C7_trajectory_shape ⟨0, 0⟩ ⟨1, 0⟩ 2 2 3).2.1 0 (by norm_num [iterate, iterateFrom])

theorem iterateFrom_zero (L : ℕ) :
    iterateFrom ⟨0, 0⟩ 9 ⟨0, 0⟩ 0 0 L = (List.replicate L ⟨0, 0⟩, 0, 0) := by
  induction L with
  | zero => rfl
  | succ n ih =>
    simp only [iterateFrom]
    norm_num
    simp [ih, List.replicate_succ]

/-- C8: tracing the zero parameter from the origin with escape radius 2 and
stop radius 3 yields exactly limit zero points and escaped false. -/
theorem C8_zero_parameter_trajectory (L : ℕ) :
    iterate ⟨0, 0⟩ ⟨0, 0⟩ L 2 3 = (List.replicate L ⟨0, 0⟩, false) := by
  have h9 : ((3:ℚ) * 3) = 9 := by norm_num
  have h0 : ((0:ℚ) * 0) = 0 := by norm_num
  have hlt : ¬ ((0:ℚ) + 0 > 2 * 2) := by norm_num
  simp [iterate, h9, h0, iterateFrom_zero, hlt]

/-- C1: a single bump on a fresh 1 by 1 image leaves the cell at 1 but the
shared maximum at 0, because fetch_add returns the value from before the
increment and that value is what reaches fetch_max; the stored maximum is
therefore not at least every cell value after a completed bump call. -/
theorem C1_bump_maximum_lags :
    ∃ img : RawImage, (RawImage.new 1 1).bump 0 0 0 = some img ∧
      img.data.getD 0 0 = 1 ∧ img.maximum = 0 ∧ img.maximum < img.data.getD 0 0 := by
  refine ⟨{ height := 1, data := [1, 0, 0], maximum := 0 }, ?_, rfl, rfl, ?_⟩
  · rfl
  · norm_num

theorem flat_index_lt (s x y ch : ℕ) (hx : x < s) (hy : y < s) (hch : ch < 3) :
    (x * s + y) * 3 + ch < 3 * s * s := by
  have h1 : x * s + y < s * s := by
    calc x * s + y < x * s + s := by omega
    _ = (x + 1) * s := by ring
    _ ≤ s * s := Nat.mul_le_mul_right s hx
  calc (x * s + y) * 3 + ch < (x * s + y) * 3 + 3 := by omega
  _ = (x * s + y + 1) * 3 := by ring
  _ ≤ (s * s) * 3 := Nat.mul_le_mul_right 3 h1
  _ = 3 * s * s := by ring

theorem bumpIndex_no_wrap (s x y ch : ℕ) (hs : 3 * s * s < U32)
    (hx : x < s) (hy : y < s) (hch : ch < 3) :
    RawImage.bumpIndex s x y ch = (x * s + y) * 3 + ch := by
  have hss : s * s < U32 := by
    have h3 : s * s ≤ 3 * s * s := by
      calc s * s ≤ 3 * (s * s) := Nat.le_mul_of_pos_left (s * s) (by norm_num)
      _ = 3 * s * s := by ring
    omega
  have h1 : x * s + y < s * s := by
    calc x * s + y < x * s + s := by omega
    _ = (x + 1) * s := by ring
    _ ≤ s * s := Nat.mul_le_mul_right s hx
  have hfull : (x * s + y) * 3 + ch < U32 := lt_trans (flat_index_lt s x y ch hx hy hch) hs
  have hxs : x * s < U32 := by omega
  have hxy : x * s + y < U32 := by omega
  have h3xy : (x * s + y) * 3 < U32 := by omega
  rw [RawImage.bumpIndex, Nat.mod_eq_of_lt hxs, Nat.mod_eq_of_lt hxy,
    Nat.mod_eq_of_lt h3xy, Nat.mod_eq_of_lt hfull]

theorem flat_index_inj (s x y ch x2 y2 ch2 : ℕ)
    (hy : y < s) (hch : ch < 3) (hy2 : y2 < s) (hch2 : ch2 < 3)
    (heq : (x2 * s + y2) * 3 + ch2 = (x * s + y) * 3 + ch) :
    x2 = x ∧ y2 = y ∧ ch2 = ch := by
  have hab : ch2 = ch ∧ x2 * s + y2 = x * s + y := by
    have ha := heq
    generalize hA : x2 * s + y2 = A at ha ⊢
    generalize hB : x * s + y = B at ha ⊢
    omega
  obtain ⟨hcc, hxy⟩ := hab
  have hxx : x2 = x := by
    rcases Nat.lt_trichotomy x2 x with hlt | heq2 | hgt
    · exfalso
      have : x2 * s + y2 < x * s + y := by
        calc x2 * s + y2 < x2 * s + s := by omega
        _ = (x2 + 1) * s := by ring
        _ ≤ x * s := Nat.mul_le_mul_right s hlt
        _ ≤ x * s + y := by omega
      omega
    · exact heq2
    · exfalso
      have : x * s + y < x2 * s + y2 := by
        calc x * s + y < x * s + s := by omega
        _ = (x + 1) * s := by ring
        _ ≤ x2 * s := Nat.mul_le_mul_right s hgt
        _ ≤ x2 * s + y2 := by omega
      omega
  refine ⟨hxx, ?_, hcc⟩
  rw [hxx] at hxy
  generalize hB : x * s = B at hxy
  omega

/-- C10 counterexample: at size 65536 the u32 product size*size*3 wraps to
zero, the data vector is empty, and even bump(0, 0, 0) indexes out of
bounds, refuting the claim that the flat index is always below the data
length and that bump never indexes out of bounds. -/
theorem C10_counterexample :
    (RawImage.new 65536 65536).bump 0 0 0 = none := by
  rfl

/-- C10 amended: whenever 3*s*s fits in a u32 (no overflow), the flat index
of every in-range (x, y, channel) triple is strictly below the data length
s*s*3, bump succeeds, and distinct in-range triples address distinct
cells. -/
theorem C10_index_in_bounds (s x y channel : ℕ)
    (hs : 3 * s * s < U32) (hx : x < s) (hy : y < s) (hch : channel < 3) :
    RawImage.bumpIndex s x y channel < (RawImage.new s s).data.length ∧
    ((RawImage.new s s).bump x y channel).isSome ∧
    (∀ x2 y2 ch2, x2 < s → y2 < s → ch2 < 3 →
      RawImage.bumpIndex s x2 y2 ch2 = RawImage.bumpIndex s x y channel →
      x2 = x ∧ y2 = y ∧ ch2 = channel) := by
  have hss : s * s < U32 := by
    have h3 : s * s ≤ 3 * s * s := by
      calc s * s ≤ 3 * (s * s) := Nat.le_mul_of_pos_left (s * s) (by norm_num)
      _ = 3 * s * s := by ring
    omega
  have hlen : (RawImage.new s s).data.length = 3 * s * s := by
    have h33 : s * s * 3 < U32 := by
      calc s * s * 3 = 3 * s * s := by ring
      _ < U32 := hs
    rw [RawImage.new]
    simp only [List.length_replicate, CHANNELS]
    rw [Nat.mod_eq_of_lt hss, Nat.mod_eq_of_lt h33]
    ring
  have hidx : RawImage.bumpIndex s x y channel < (RawImage.new s s).data.length := by
    rw [hlen, bumpIndex_no_wrap s x y channel hs hx hy hch]
    exact flat_index_lt s x y channel hx hy hch
  refine ⟨hidx, ?_, ?_⟩
  · have hh : (RawImage.new s s).height = s := rfl
    rw [RawImage.bump]
    simp only [hh]
    rw [dif_pos hidx]
    rfl
  · intro x2 y2 ch2 hx2 hy2 hch2 heq
    rw [bumpIndex_no_wrap s x y channel hs hx hy hch,
      bumpIndex_no_wrap s x2 y2 ch2 hs hx2 hy2 hch2] at heq
    exact flat_index_inj s x y channel x2 y2 ch2 hy hch hy2 hch2 heq

/-- C10 witness: the amended bound and success at a concrete image size. -/
theorem C10_witness :
    RawImage.bumpIndex 2 1 1 2 < (RawImage.new 2 2).data.length ∧
    ((RawImage.new 2 2).bump 1 1 2).isSome :=
  ⟨(C10_index_in_bounds 2 1 1 2 (by norm_num [U32]) (by norm_num) (by norm_num)
      (by norm_num)).1,
   (C10_index_in_bounds 2 1 1 2 (by norm_num [U32]) (by norm_num) (by norm_num)
      (by norm_num)).2.1⟩

theorem getD_range (n m : ℕ) (h : m < n) : (List.range n).getD m 0 = m := by
  simp [List.getD, List.getElem?_range h]

theorem getD_map_range {α : Type} (n i : ℕ) (h : i < n) (f : ℕ → α) (d : α) :
    ((List.range n).map f).getD i d = f i := by
  simp [List.getD, List.getElem?_map, List.getElem?_range h]

theorem next_at (n m : ℕ) (hn : 0 < n) (hm : m < n) (rng : ℕ → ℚ) :
    (stateAt n m).next rng (2 * m) =
      Except.ok (some (pointAt n rng m), stateAt n (m + 1), 2 * (m + 1)) := by
  have hker : ¬ (n = 0) := by omega
  have hcount : ¬ (n ≤ m) := by omega
  have hmod : m % n = m := Nat.mod_eq_of_lt hm
  by_cases hik : m < squirt n * squirt n
  · simp [JitterSampler.next, stateAt, JitterSampler.new, pointAt, hker, hcount, hmod,
      List.getElem?_range hm, hik, Nat.mul_succ]
  · simp [JitterSampler.next, stateAt, JitterSampler.new, pointAt, hker, hcount, hmod,
      List.getElem?_range hm, hik, Nat.mul_succ]

theorem next_done (n : ℕ) (hn : 0 < n) (rng : ℕ → ℚ) (pos : ℕ) :
    (stateAt n n).next rng pos = Except.ok (none, stateAt n (n + 1), pos) := by
  have hker : ¬ (n = 0) := by omega
  simp [JitterSampler.next, stateAt, JitterSampler.new, hker]

theorem runFrom_stateAt (n : ℕ) (hn : 0 < n) (rng : ℕ → ℚ) :
    ∀ (k m : ℕ), m + k ≤ n →
      (stateAt n m).runFrom rng (2 * m) k =
        Except.ok ((List.range k).map (fun j => some (pointAt n rng (m + j))),
          stateAt n (m + k), 2 * (m + k)) := by
  intro k
  induction k with
  | zero =>
    intro m hm
    simp [JitterSampler.runFrom]
  | succ kk ih =>
    intro m hm
    have hnext := next_at n m hn (by omega) rng
    have hrun := ih (m + 1) (by omega)
    have hlist : (List.range (kk + 1)).map (fun j => some (pointAt n rng (m + j))) =
        some (pointAt n rng m) ::
          (List.range kk).map (fun j => some (pointAt n rng (m + 1 + j))) := by
      rw [List.range_succ_eq_map, List.map_cons, List.map_map]
      refine congrArg₂ _ (by simp) ?_
      apply List.map_congr_left
      intro j _
      simp only [Function.comp, Nat.succ_eq_add_one]
      rw [show m + (j + 1) = m + 1 + j from by omega]
    have hm1 : m + 1 + kk = m + (kk + 1) := by omega
    simp only [JitterSampler.runFrom, hnext, hrun, hm1, hlist]

theorem runFrom_split (rng : ℕ → ℚ) :
    ∀ (k1 k2 : ℕ) (s : JitterSampler) (pos : ℕ),
      s.runFrom rng pos (k1 + k2) =
        match s.runFrom rng pos k1 with
        | Except.error e => Except.error e
        | Except.ok (items, s2, pos2) =>
          match s2.runFrom rng pos2 k2 with
          | Except.error e => Except.error e
          | Except.ok (items2, s3, pos3) => Except.ok (items ++ items2, s3, pos3) := by
  intro k1
  induction k1 with
  | zero =>
    intro k2 s pos
    rw [Nat.zero_add]
    cases h : s.runFrom rng pos k2 with
    | error e => simp [JitterSampler.runFrom, h]
    | ok v =>
      obtain ⟨items, s3, pos3⟩ := v
      simp [JitterSampler.runFrom, h]
  | succ kk ih =>
    intro k2 s pos
    rw [show kk + 1 + k2 = (kk + k2) + 1 from by omega]
    rw [JitterSampler.runFrom, JitterSampler.runFrom]
    cases hnext : s.next rng pos with
    | error e => rfl
    | ok v =>
      obtain ⟨item, s2, pos2⟩ := v
      dsimp only
      rw [ih k2 s2 pos2]
      cases h1 : s2.runFrom rng pos2 kk with
      | error e => rfl
      | ok v1 =>
        obtain ⟨items1, s3, pos3⟩ := v1
        dsimp only
        cases h2 : s3.runFrom rng pos3 k2 with
        | error e => simp [h2]
        | ok v2 =>
          obtain ⟨items2, s4, pos4⟩ := v2
          simp [h2]

/-- C2: the first call to next on a sampler created for zero samples does
not return None: index() evaluates count % samples, a remainder by zero,
which panics. The claimed empty-sequence behaviour for n = 0 therefore
fails on the code. -/
theorem C2_next_panics_on_zero_samples (rng : ℕ → ℚ) (pos : ℕ) :
    (JitterSampler.new 0).next rng pos = Except.error () := by
  rfl

theorem stratified_in_cell (k : ℕ) (hk : 0 < k) (u : ℚ) (hu0 : 0 ≤ u) (hu1 : u < 1)
    (x : ℕ) (hx : x < k) :
    (x : ℚ) / k ≤ (1 / (k : ℚ)) * (u + (x : ℚ)) ∧
      (1 / (k : ℚ)) * (u + (x : ℚ)) < ((x : ℚ) + 1) / k := by
  have hkq : (0 : ℚ) < k := by exact_mod_cast hk
  have hform : (1 / (k : ℚ)) * (u + (x : ℚ)) = (u + (x : ℚ)) / k := by ring
  constructor
  · rw [hform]
    exact (div_le_div_right hkq).mpr (by linarith)
  · rw [hform]
    exact (div_lt_div_right hkq).mpr (by linarith)

theorem cell_coord_eq (k a c : ℕ) (ha : a < k) (hc : c < k) (v : ℚ)
    (h1 : (a : ℚ) / k ≤ v) (h2 : v < ((a : ℚ) + 1) / k)
    (h3 : (c : ℚ) / k ≤ v) (h4 : v < ((c : ℚ) + 1) / k) : c = a := by
  have hkq : (0 : ℚ) < k := by exact_mod_cast (show 0 < k by omega)
  rcases Nat.lt_trichotomy c a with hlt | he | hgt
  · exfalso
    have hca : ((c : ℚ) + 1) ≤ (a : ℚ) := by exact_mod_cast hlt
    have hle : ((c : ℚ) + 1) / k ≤ (a : ℚ) / k := (div_le_div_right hkq).mpr hca
    linarith
  · exact he
  · exfalso
    have hac : ((a : ℚ) + 1) ≤ (c : ℚ) := by exact_mod_cast hgt
    have hle : ((a : ℚ) + 1) / k ≤ (c : ℚ) / k := (div_le_div_right hkq).mpr hac
    linarith

/-- C6: for a perfect square sample count k*k, a fresh sampler run to
exhaustion yields, for each cell (a, b) of the k by k stratification grid,
exactly one index whose point lies inside that cell's sub-rectangle,
provided every generator output lies in the unit interval. -/
theorem C6_one_point_per_cell (k a b : ℕ) (rng : ℕ → ℚ)
    (ha : a < k) (hb : b < k) (hr : ∀ j, 0 ≤ rng j ∧ rng j < 1) :
    ∃ outs s2 pos2,
      (JitterSampler.new (k * k)).runFrom rng 0 (k * k) = Except.ok (outs, s2, pos2) ∧
      outs.length = k * k ∧
      (∃! i, i < k * k ∧ ∃ q, outs.getD i none = some q ∧ inCell k a b q) := by
  have hk : 0 < k := by omega
  have hn : 0 < k * k := Nat.mul_pos hk hk
  have hrun := runFrom_stateAt (k * k) hn rng (k * k) 0 (by omega)
  rw [show (2 : ℕ) * 0 = 0 from rfl] at hrun
  have hnew : JitterSampler.new (k * k) = stateAt (k * k) 0 := rfl
  rw [hnew, hrun]
  refine ⟨_, _, _, rfl, by simp, ?_⟩
  have hsq : squirt (k * k) = k := Nat.sqrt_eq k
  have hout : ∀ i, i < k * k →
      ((List.range (k * k)).map (fun j => some (pointAt (k * k) rng (0 + j)))).getD i none
        = some (pointAt (k * k) rng i) := by
    intro i hi
    rw [getD_map_range _ _ hi]
    simp
  have hpoint : ∀ i, i < k * k → pointAt (k * k) rng i =
      ((1 / (k : ℚ)) * (rng (2 * i) + ((i % k : ℕ) : ℚ)),
        (1 / (k : ℚ)) * (rng (2 * i + 1) + ((i / k : ℕ) : ℚ))) := by
    intro i hi
    rw [pointAt]
    rw [hsq]
    rw [if_pos hi]
  have hmem : ∀ i, i < k * k → inCell k (i % k) (i / k) (pointAt (k * k) rng i) := by
    intro i hi
    rw [hpoint i hi]
    have h1 := stratified_in_cell k hk (rng (2 * i)) (hr (2 * i)).1 (hr (2 * i)).2
      (i % k) (Nat.mod_lt i hk)
    have h2 := stratified_in_cell k hk (rng (2 * i + 1)) (hr (2 * i + 1)).1 (hr (2 * i + 1)).2
      (i / k) (Nat.div_lt_of_lt_mul hi)
    exact ⟨h1.1, h1.2, h2.1, h2.2⟩
  have hlt : b * k + a < k * k := by
    calc b * k + a < b * k + k := by omega
    _ = (b + 1) * k := by ring
    _ ≤ k * k := Nat.mul_le_mul_right k hb
  refine ⟨b * k + a, ⟨hlt, pointAt (k * k) rng (b * k + a), hout _ hlt, ?_⟩, ?_⟩
  · have hmod : (b * k + a) % k = a := by
      rw [show b * k + a = k * b + a from by ring, Nat.mul_add_mod, Nat.mod_eq_of_lt ha]
    have hdiv : (b * k + a) / k = b := by
      rw [show b * k + a = k * b + a from by ring, Nat.mul_add_div hk, Nat.div_eq_of_lt ha]
      omega
    have hm := hmem (b * k + a) hlt
    rw [hmod, hdiv] at hm
    exact hm
  · rintro i ⟨hi, q, hq, hcell⟩
    rw [hout i hi] at hq
    have hqe : pointAt (k * k) rng i = q := Option.some.inj hq
    have hcelli := hmem i hi
    rw [hqe] at hcelli
    have hxa : i % k = a :=
      cell_coord_eq k a (i % k) ha (Nat.mod_lt i hk) q.1 hcell.1 hcell.2.1
        hcelli.1 hcelli.2.1
    have hyb : i / k = b :=
      cell_coord_eq k b (i / k) hb (Nat.div_lt_of_lt_mul hi) q.2 hcell.2.2.1 hcell.2.2.2
        hcelli.2.2.1 hcelli.2.2.2
    rw [← Nat.div_add_mod i k, hxa, hyb]
    ring

/-- C6 witness: the one-point-per-cell statement at a concrete sample
count and generator. -/
theorem C6_witness :
    ∃ outs s2 pos2,
      (JitterSampler.new (1 * 1)).runFrom (fun _ => (0 : ℚ)) 0 (1 * 1) =
        Except.ok (outs, s2, pos2) ∧
      outs.length = 1 * 1 ∧
      (∃! i, i < 1 * 1 ∧ ∃ q, outs.getD i none = some q ∧ inCell 1 0 0 q) :=
  C6_one_point_per_cell 1 0 0 (fun _ => 0) (by norm_num) (by norm_num)
    (fun j => by norm_num)

/-- C3 counterexample: a snapshot with maximum 0 but a positive count is
not mapped to an all-zero buffer: the multiplier is an infinity, a
positive count times infinity stays infinite, and the saturating u8 cast
turns it into 255. -/
theorem C3_counterexample :
    map_to_color [1] 0 1 = [255] ∧ map_to_color [1] 0 1 ≠ [0] := by
  constructor <;>
    norm_num [map_to_color, F64.div, F64.mul, F64.powf, F64.toU8]

/-- C3 amended: when the maximum is 0 and every count is 0 (the situation
the spec describes, no sample ever escaping into the viewport), the mapper
returns an all-zero buffer of the input length and cannot fail: each cell
computes 0 times infinity, a NaN, whose u8 cast is 0. A cell with a
positive count, however, maps to 255, so the all-black policy does not
extend to every maximum-0 snapshot. -/
theorem C3_zero_histogram_black (data : List ℕ) (curve : ℚ) (hc : 0 < curve) :
    (∀ p ∈ data, p = 0) → map_to_color data 0 curve = List.replicate data.length 0 := by
  have hcnz : curve ≠ 0 := ne_of_gt hc
  induction data with
  | nil => intro _; rfl
  | cons p t ih =>
    intro hd
    have hp : p = 0 := hd p (by simp)
    have ht := ih (fun q hq => hd q (by simp [hq]))
    subst hp
    simp only [map_to_color, List.map_cons] at ht ⊢
    simp only [List.length_cons, List.replicate_succ]
    refine List.cons_eq_cons.mpr ⟨?_, ht⟩
    norm_num [F64.div, F64.mul, F64.powf, F64.toU8, hcnz]

/-- C3 witness: the amended all-black behaviour at a concrete all-zero
snapshot. -/
theorem C3_witness :
    map_to_color [0, 0] 0 1 = List.replicate 2 0 :=
  C3_zero_histogram_black [0, 0] 1 (by norm_num) (by simp)

theorem getD_map_of_lt {α β : Type} (l : List α) (f : α → β) (i : ℕ) (h : i < l.length)
    (d : α) (d2 : β) : (l.map f).getD i d2 = f (l.getD i d) := by
  simp [List.getD, List.getElem?_map, List.getElem?_eq_getElem h]

/-- C9: with curve 1 and a positive maximum, a cell whose count equals the
maximum maps to byte 255 and a cell with count 0 maps to byte 0, matching
clamp(0, 255, floor(256 times (count / maximum) to the curve)). -/
theorem C9_linear_mapping (data : List ℕ) (maximum : ℕ) (hm : 0 < maximum) (i : ℕ)
    (hi : i < data.length) :
    (data.getD i 0 = maximum → (map_to_color data maximum 1).getD i 0 = 255) ∧
    (data.getD i 0 = 0 → (map_to_color data maximum 1).getD i 0 = 0) := by
  have hmq : ((maximum : ℚ)) ≠ 0 := Nat.cast_ne_zero.mpr (by omega)
  have hmap : (map_to_color data maximum 1).getD i 0 =
      min 255 (F64.toU8 (F64.mul (F64.powf (F64.mul (F64.val ((data.getD i 0 : ℕ) : ℚ))
        (F64.div (F64.val 1) (F64.val (maximum : ℚ)))) 1) (F64.val 256))) := by
    simp only [map_to_color]
    exact getD_map_of_lt data _ i hi 0 0
  constructor
  · intro hp
    rw [hmap, hp]
    have hdiv : F64.div (F64.val 1) (F64.val (maximum : ℚ)) =
        F64.val (1 / (maximum : ℚ)) := by
      simp [F64.div, hmq]
    rw [hdiv]
    have hmul : F64.mul (F64.val (maximum : ℚ)) (F64.val (1 / (maximum : ℚ))) =
        F64.val 1 := by
      simp only [F64.mul]
      congr 1
      field_simp
    rw [hmul]
    norm_num [F64.powf, F64.mul, F64.toU8]
  · intro hp
    rw [hmap, hp]
    have hdiv : F64.div (F64.val 1) (F64.val (maximum : ℚ)) =
        F64.val (1 / (maximum : ℚ)) := by
      simp [F64.div, hmq]
    rw [hdiv]
    norm_num [F64.powf, F64.mul, F64.toU8]

/-- C9 witness: the linear endpoints at a concrete snapshot. -/
theorem C9_witness :
    (map_to_color [2, 0] 2 1).getD 0 0 = 255 ∧ (map_to_color [2, 0] 2 1).getD 1 0 = 0 :=
  ⟨(C9_linear_mapping [2, 0] 2 (by norm_num) 0 (by norm_num)).1 rfl,
   (C9_linear_mapping [2, 0] 2 (by norm_num) 1 (by norm_num)).2 rfl⟩

/-- C5: the projection returns no pixel when the bounds coincide; otherwise
with interp = (v - lo) / (hi - lo) it returns exactly the pixel
floor(size * interp) when interp is nonnegative and that floor is strictly
below size, and no pixel otherwise; in particular on bounds -2 to 2 with
size 100, the value -2 maps to 0, the value 1.999 maps to 99, and the
value 2 maps to no pixel. -/
theorem C5_f64_to_index_correct (v lo hi : ℚ) (size : ℕ) :
    (lo = hi → f64_to_index v lo hi size = none) ∧
    (lo ≠ hi → ∀ n : ℕ,
      (f64_to_index v lo hi size = some n ↔
        0 ≤ (v - lo) / (hi - lo) ∧
        (n : ℤ) = ⌊(size : ℚ) * ((v - lo) / (hi - lo))⌋ ∧
        ⌊(size : ℚ) * ((v - lo) / (hi - lo))⌋ < (size : ℤ))) ∧
    f64_to_index (-2) (-2) 2 100 = some 0 ∧
    f64_to_index (1999 / 1000) (-2) 2 100 = some 99 ∧
    f64_to_index 2 (-2) 2 100 = none := by
  refine ⟨?_, ?_, ?_, ?_, ?_⟩
  · intro h
    simp [f64_to_index, h]
  · intro hne n
    simp only [f64_to_index, if_neg hne]
    constructor
    · intro hs
      by_cases hcond : 0 ≤ (v - lo) / (hi - lo) ∧
          Int.toNat ⌊(size : ℚ) * ((v - lo) / (hi - lo))⌋ < size
      · rw [if_pos hcond] at hs
        obtain ⟨hc1, hc2⟩ := hcond
        have hfl : 0 ≤ ⌊(size : ℚ) * ((v - lo) / (hi - lo))⌋ :=
          Int.floor_nonneg.mpr (mul_nonneg (by positivity) hc1)
        have hn : Int.toNat ⌊(size : ℚ) * ((v - lo) / (hi - lo))⌋ = n :=
          Option.some.inj hs
        exact ⟨hc1, by omega, by omega⟩
      · rw [if_neg hcond] at hs
        exact absurd hs (by simp)
    · rintro ⟨h1, h2, h3⟩
      have hfl : 0 ≤ ⌊(size : ℚ) * ((v - lo) / (hi - lo))⌋ :=
        Int.floor_nonneg.mpr (mul_nonneg (by positivity) h1)
      have hcond : 0 ≤ (v - lo) / (hi - lo) ∧
          Int.toNat ⌊(size : ℚ) * ((v - lo) / (hi - lo))⌋ < size := ⟨h1, by omega⟩
      rw [if_pos hcond]
      exact congrArg some (by omega)
  · have hfl : ⌊(100 : ℚ) * ((-2 - (-2)) / (2 - (-2)))⌋ = 0 := by norm_num
    have hne : ((-2 : ℚ)) ≠ 2 := by norm_num
    simp [f64_to_index, hfl, hne]
  · have hne : ((-2 : ℚ)) ≠ 2 := by norm_num
    have hfl : ⌊(100 : ℚ) * ((1999 / 1000 + 2) / (2 + 2))⌋ = 99 := by
      rw [Int.floor_eq_iff]
      norm_num
    simp [f64_to_index, hne, hfl]
    norm_num
  · have hfl : ⌊(100 : ℚ) * ((2 - (-2)) / (2 - (-2)))⌋ = 100 := by norm_num
    simp [f64_to_index, hfl]

/-- C5 witness: the degenerate-bounds case and the left-edge case at
concrete inputs. -/
theorem C5_witness :
    f64_to_index 1 2 2 10 = none ∧
    (f64_to_index (-2) (-2) 2 100 = some 0 ↔
      0 ≤ ((-2 : ℚ) - (-2)) / (2 - (-2)) ∧
      ((0 : ℕ) : ℤ) = ⌊(100 : ℚ) * (((-2 : ℚ) - (-2)) / (2 - (-2)))⌋ ∧
      ⌊(100 : ℚ) * (((-2 : ℚ) - (-2)) / (2 - (-2)))⌋ < ((100 : ℕ) : ℤ)) :=
  ⟨(C5_f64_to_index_correct 1 2 2 10).1 rfl,
   (C5_f64_to_index_correct (-2) (-2) 2 100).2.1 (by norm_num) 0⟩

end Nebulae
